import Mathlib

/-!
Verification of `nlp-models/pytorch/birnn_attn_text_clf.py` (class
`RNNTextClassifier`).

Shallow embedding conventions:
* Python lists / 1-D numpy arrays become `List`; machine floats become `ℝ`
  (`math.log` / `math.exp` become `Real.log` / `Real.exp`).
* Fallible Python code (raising `ValueError` / `ZeroDivisionError`) becomes
  `Except String`.
* Batch-first tensors of rank 2 / 3 become curried functions
  `Fin batch → Fin seqLen → ℝ` and `Fin batch → Fin seqLen → Fin feat → ℝ`;
  a tensor of arbitrary rank (for `reverse`, which is called on both ranks)
  is a function from a dependent index tuple to `ℝ`.
* The external collaborators (torch LSTM cells, the embedding table, the
  optimizer) are universally quantified function parameters where a claim
  needs them; the torch primitives actually exercised by the claims
  (`range`, slicing, `index_select`, `softmax`'s legacy default axis,
  `bmm` with a (·,·,1) factor) are embedded explicitly.
-/

/-! ## Batch generation (`RNNTextClassifier.gen_batch`) -/

/-- Element count of the Python builtin `range(start, stop, step)` for
`step ≠ 0`, exactly as CPython computes it: for a positive step the count is
`(stop - start - 1) // step + 1` when `start < stop` and `0` otherwise, and
symmetrically for a negative step. -/
def pyRangeLen (start stop step : ℤ) : ℕ :=
  if 0 < step then
    (if stop ≤ start then 0 else ((stop - start - 1) / step + 1).toNat)
  else
    (if start ≤ stop then 0 else ((start - stop - 1) / (-step) + 1).toNat)

/-- Python `range(start, stop, step)` as a list of integers; `range` raises
`ValueError` when `step = 0`. -/
def pyRange (start stop step : ℤ) : Except String (List ℤ) :=
  if step = 0 then Except.error "ValueError: range() arg 3 must not be zero"
  else Except.ok
    ((List.range (pyRangeLen start stop step)).map (fun (k : ℕ) => start + (k : ℤ) * step))

/-- Python slice `arr[i : j]`, specialised to `0 ≤ i` — the only case reached
from `gen_batch`, whose start indices come from `range(0, len(arr), B)`. -/
def pySlice (arr : List α) (i j : ℤ) : List α :=
  (arr.drop i.toNat).take (j - i).toNat

/-- `RNNTextClassifier.gen_batch`:
`for i in range(0, len(arr), batch_size): yield arr[i : i + batch_size]`,
with the generator run to a list (it is finite). -/
def gen_batch (arr : List α) (batch_size : ℤ) : Except String (List (List α)) :=
  (pyRange 0 arr.length batch_size).map
    (fun idxs => idxs.map (fun i => pySlice arr i (i + batch_size)))

/-- Recursive characterisation of the slices produced by `gen_batch` for a
positive batch size: the first `B` elements, then the chunks of the rest.
Used to state and prove the partition properties; `gen_batch_pos` links it to
`gen_batch` itself. -/
def chunks : List α → ℕ → List (List α)
  | [], _ => []
  | a :: as, B => (a :: as).take B :: chunks (as.drop (B - 1)) B
termination_by l _ => l.length
decreasing_by
  simp only [List.length_drop, List.length_cons]
  omega

theorem chunks_nil (B : ℕ) : chunks ([] : List α) B = [] := by
  simp [chunks]

theorem chunks_cons (a : α) (as : List α) (B : ℕ) :
    chunks (a :: as) B = (a :: as).take B :: chunks (as.drop (B - 1)) B := by
  simp [chunks]

/-- For a positive batch size the recursion peels off `take B` and recurses on
`drop B`. -/
theorem chunks_eq_cons (arr : List α) (B : ℕ) (hB : 0 < B) (h : arr ≠ []) :
    chunks arr B = arr.take B :: chunks (arr.drop B) B := by
  cases arr with
  | nil => exact absurd rfl h
  | cons a as =>
      rw [chunks_cons]
      obtain ⟨B', rfl⟩ : ∃ B', B = B' + 1 := ⟨B - 1, by omega⟩
      simp

theorem chunks_eq_nil_iff (arr : List α) (B : ℕ) :
    chunks arr B = [] ↔ arr = [] := by
  cases arr with
  | nil => simp [chunks_nil]
  | cons a as => simp [chunks_cons]

/-- The chunks concatenate back to the original list. -/
theorem chunks_flatten (B : ℕ) (hB : 0 < B) (arr : List α) :
    (chunks arr B).flatten = arr := by
  have H : ∀ n (arr : List α), arr.length ≤ n → (chunks arr B).flatten = arr := by
    intro n
    induction n with
    | zero =>
        intro arr h
        have : arr = [] := List.eq_nil_of_length_eq_zero (Nat.le_zero.mp h)
        subst this
        simp [chunks_nil]
    | succ n ih =>
        intro arr h
        rcases arr with _ | ⟨a, as⟩
        · simp [chunks_nil]
        · rw [chunks_eq_cons (a :: as) B hB (by simp), List.flatten_cons,
              ih ((a :: as).drop B)
                (by simp only [List.length_drop, List.length_cons] at h ⊢; omega)]
          exact List.take_append_drop B (a :: as)
  exact H arr.length arr le_rfl

/-- There are exactly `⌈N / B⌉ = (N + B - 1) / B` chunks. -/
theorem chunks_length (B : ℕ) (hB : 0 < B) (arr : List α) :
    (chunks arr B).length = (arr.length + B - 1) / B := by
  have H : ∀ n (arr : List α), arr.length ≤ n →
      (chunks arr B).length = (arr.length + B - 1) / B := by
    intro n
    induction n with
    | zero =>
        intro arr h
        have : arr = [] := List.eq_nil_of_length_eq_zero (Nat.le_zero.mp h)
        subst this
        rw [chunks_nil]
        simp only [List.length_nil, Nat.zero_add]
        rw [Nat.div_eq_of_lt (by omega)]
    | succ n ih =>
        intro arr h
        rcases arr with _ | ⟨a, as⟩
        · rw [chunks_nil]
          simp only [List.length_nil, Nat.zero_add]
          rw [Nat.div_eq_of_lt (by omega)]
        · rw [chunks_eq_cons (a :: as) B hB (by simp), List.length_cons,
              ih ((a :: as).drop B)
                (by simp only [List.length_drop, List.length_cons] at h ⊢; omega),
              List.length_drop]
          simp only [List.length_cons]
          rcases Nat.lt_or_ge as.length B with hlt | hge
          · have h1 : as.length + 1 - B = 0 := by omega
            rw [h1, Nat.zero_add, Nat.div_eq_of_lt (by omega)]
            have h2 : as.length + 1 + B - 1 = as.length + B := by omega
            rw [h2, Nat.add_div_right _ hB, Nat.div_eq_of_lt (by omega)]
          · have h1 : as.length + 1 - B + B - 1 = as.length := by omega
            have h2 : as.length + 1 + B - 1 = as.length + B := by omega
            rw [h1, h2, Nat.add_div_right _ hB]
  exact H arr.length arr le_rfl

/-- Every chunk has at most `B` elements. -/
theorem chunks_mem_length_le (B : ℕ) (arr : List α) :
    ∀ l ∈ chunks arr B, l.length ≤ B := by
  have H : ∀ n (arr : List α), arr.length ≤ n →
      ∀ l ∈ chunks arr B, l.length ≤ B := by
    intro n
    induction n with
    | zero =>
        intro arr h
        have : arr = [] := List.eq_nil_of_length_eq_zero (Nat.le_zero.mp h)
        subst this
        simp [chunks_nil]
    | succ n ih =>
        intro arr h
        rcases arr with _ | ⟨a, as⟩
        · simp [chunks_nil]
        · rw [chunks_cons]
          intro l hl
          rcases List.mem_cons.mp hl with rfl | hl
          · simp only [List.length_take]
            exact Nat.min_le_left B _
          · exact ih (as.drop (B - 1))
              (by simp only [List.length_drop, List.length_cons] at h ⊢; omega) l hl
  exact H arr.length arr le_rfl

/-- Every chunk except possibly the last has exactly `B` elements. -/
theorem chunks_init_full (B : ℕ) (hB : 0 < B) (arr : List α) :
    ∀ i, i + 1 < (chunks arr B).length → ((chunks arr B).getD i []).length = B := by
  have H : ∀ n (arr : List α), arr.length ≤ n →
      ∀ i, i + 1 < (chunks arr B).length → ((chunks arr B).getD i []).length = B := by
    intro n
    induction n with
    | zero =>
        intro arr h
        have : arr = [] := List.eq_nil_of_length_eq_zero (Nat.le_zero.mp h)
        subst this
        simp [chunks_nil]
    | succ n ih =>
        intro arr h i hi
        rcases arr with _ | ⟨a, as⟩
        · simp [chunks_nil] at hi
        · rw [chunks_eq_cons (a :: as) B hB (by simp)] at hi ⊢
          cases i with
          | zero =>
              have hrest : chunks ((a :: as).drop B) B ≠ [] := by
                simp only [List.length_cons] at hi
                intro hc
                rw [hc] at hi
                simp at hi
              have hne : (a :: as).drop B ≠ [] :=
                fun hc => hrest (by rw [hc, chunks_nil])
              have hlen : B < (a :: as).length := by
                by_contra hc
                exact hne (List.drop_eq_nil_of_le (by omega))
              simp only [List.length_cons] at hlen
              simp only [List.getD_cons_zero, List.length_take, List.length_cons]
              omega
          | succ i =>
              simp only [List.getD_cons_succ, List.length_cons] at hi ⊢
              exact ih ((a :: as).drop B)
                (by simp only [List.length_drop, List.length_cons] at h ⊢; omega) i (by omega)
  exact H arr.length arr le_rfl

/-- `pyRangeLen 0 N B = ⌈N / B⌉` for a positive step `B`. -/
theorem pyRangeLen_zero_pos (N B : ℕ) (hB : 0 < B) :
    pyRangeLen 0 (N : ℤ) (B : ℤ) = (N + B - 1) / B := by
  have hBZpos : (0 : ℤ) < B := by exact_mod_cast hB
  unfold pyRangeLen
  rw [if_pos hBZpos]
  rcases Nat.eq_zero_or_pos N with rfl | hN
  · rw [if_pos (by norm_num)]
    rw [Nat.zero_add, Nat.div_eq_of_lt (by omega)]
  · rw [if_neg (by exact_mod_cast (by omega : ¬ (N : ℤ) ≤ 0))]
    have h1 : (N : ℤ) - 0 - 1 = ((N - 1 : ℕ) : ℤ) := by push_cast [hN]; omega
    rw [h1,
        show (((N - 1 : ℕ) : ℤ)) / ((B : ℕ) : ℤ) = (((N - 1) / B : ℕ) : ℤ) from by
          exact_mod_cast rfl]
    rw [show (((N - 1) / B : ℕ) : ℤ) + 1 = (((N - 1) / B + 1 : ℕ) : ℤ) from by push_cast; ring,
        Int.toNat_ofNat]
    have h2 : N + B - 1 = (N - 1) + B := by omega
    rw [h2, Nat.add_div_right _ hB]

/-- The slices `arr[k*B : k*B + B]` for `k < ⌈N / B⌉` are exactly `chunks arr B`. -/
theorem range_slices (B : ℕ) (hB : 0 < B) (arr : List α) :
    (List.range ((arr.length + B - 1) / B)).map
      (fun (k : ℕ) => pySlice arr ((k : ℤ) * B) ((k : ℤ) * B + B)) = chunks arr B := by
  have H : ∀ n (arr : List α), arr.length ≤ n →
      (List.range ((arr.length + B - 1) / B)).map
        (fun (k : ℕ) => pySlice arr ((k : ℤ) * B) ((k : ℤ) * B + B)) = chunks arr B := by
    intro n
    induction n with
    | zero =>
        intro arr h
        have : arr = [] := List.eq_nil_of_length_eq_zero (Nat.le_zero.mp h)
        subst this
        simp only [List.length_nil, Nat.zero_add, chunks_nil]
        rw [Nat.div_eq_of_lt (by omega)]
        simp
    | succ n ih =>
        intro arr h
        rcases arr with _ | ⟨a, as⟩
        · simp only [List.length_nil, Nat.zero_add, chunks_nil]
          rw [Nat.div_eq_of_lt (by omega)]
          simp
        · have hlenh : as.length + 1 ≤ n + 1 := by simpa using h
          have hdroplen : ((a :: as).drop B).length = as.length + 1 - B := by
            simp [List.length_drop]
          have hcount : ((a :: as).length + B - 1) / B =
              (((a :: as).drop B).length + B - 1) / B + 1 := by
            rw [hdroplen]
            simp only [List.length_cons]
            rcases Nat.lt_or_ge as.length B with hlt | hge
            · have h1 : as.length + 1 - B = 0 := by omega
              have h2 : as.length + 1 + B - 1 = as.length + B := by omega
              rw [h1, h2, Nat.zero_add, Nat.add_div_right _ hB,
                  Nat.div_eq_of_lt hlt, Nat.div_eq_of_lt (show B - 1 < B from by omega)]
            · have h1 : as.length + 1 - B + B - 1 = as.length := by omega
              have h2 : as.length + 1 + B - 1 = as.length + B := by omega
              rw [h1, h2, Nat.add_div_right _ hB]
          rw [hcount, List.range_succ_eq_map, List.map_cons, List.map_map]
          rw [chunks_eq_cons (a :: as) B hB (by simp)]
          congr 1
          · simp [pySlice]
          · rw [← ih ((a :: as).drop B) (by rw [hdroplen]; omega)]
            apply List.map_congr_left
            intro k _
            simp only [Function.comp]
            simp only [pySlice, add_sub_cancel_left]
            rw [List.drop_drop]
            congr 1
            have h1 : ((Nat.succ k : ℕ) : ℤ) * (B : ℤ) = (((k + 1) * B : ℕ) : ℤ) := by
              push_cast
              ring_nf
            have h2 : ((k : ℕ) : ℤ) * (B : ℤ) = ((k * B : ℕ) : ℤ) := by
              push_cast
              ring_nf
            rw [h1, h2, Int.toNat_ofNat, Int.toNat_ofNat]
            ring_nf
  exact H arr.length arr le_rfl

/-- For a positive batch size, `gen_batch` succeeds and returns exactly the
slices described by `chunks`. -/
theorem gen_batch_pos (arr : List α) (B : ℕ) (hB : 0 < B) :
    gen_batch arr (B : ℤ) = Except.ok (chunks arr B) := by
  have hBZ : (B : ℤ) ≠ 0 := by exact_mod_cast hB.ne'
  unfold gen_batch pyRange
  rw [if_neg hBZ]
  show Except.ok _ = _
  rw [pyRangeLen_zero_pos arr.length B hB]
  congr 1
  simp only [List.map_map]
  rw [← range_slices B hB arr]
  apply List.map_congr_left
  intro k _
  simp only [Function.comp]
  norm_num

/-- Claim C1: for every sequence of length `N` and every positive batch size
`B`, `gen_batch` yields exactly `⌈N/B⌉` contiguous slices whose lengths sum to
`N` (they concatenate back to the input), each of length at most `B`, and
every slice except possibly the last of length exactly `B`. -/
theorem gen_batch_partition (arr : List α) (B : ℕ) (hB : 0 < B) :
    gen_batch arr (B : ℤ) = Except.ok (chunks arr B) ∧
    (chunks arr B).length = arr.length ⌈/⌉ B ∧
    (chunks arr B).flatten = arr ∧
    ((chunks arr B).map List.length).sum = arr.length ∧
    (∀ l ∈ chunks arr B, l.length ≤ B) ∧
    (∀ i, i + 1 < (chunks arr B).length → ((chunks arr B).getD i []).length = B) := by
  refine ⟨gen_batch_pos arr B hB, ?_, chunks_flatten B hB arr, ?_,
    chunks_mem_length_le B arr, chunks_init_full B hB arr⟩
  · rw [Nat.ceilDiv_eq_add_pred_div]
    exact chunks_length B hB arr
  · rw [← List.length_flatten, chunks_flatten B hB arr]

/-- Witness for `gen_batch_partition` at `arr = [10, 20, 30, 40, 50]`, `B = 2`. -/
theorem gen_batch_partition_witness :
    0 < 2 ∧
    (gen_batch ([10, 20, 30, 40, 50] : List ℕ) ((2 : ℕ) : ℤ) =
        Except.ok (chunks [10, 20, 30, 40, 50] 2) ∧
      (chunks ([10, 20, 30, 40, 50] : List ℕ) 2).length = [10, 20, 30, 40, 50].length ⌈/⌉ 2 ∧
      (chunks ([10, 20, 30, 40, 50] : List ℕ) 2).flatten = [10, 20, 30, 40, 50] ∧
      ((chunks ([10, 20, 30, 40, 50] : List ℕ) 2).map List.length).sum =
        [10, 20, 30, 40, 50].length ∧
      (∀ l ∈ chunks ([10, 20, 30, 40, 50] : List ℕ) 2, l.length ≤ 2) ∧
      (∀ i, i + 1 < (chunks ([10, 20, 30, 40, 50] : List ℕ) 2).length →
        ((chunks ([10, 20, 30, 40, 50] : List ℕ) 2).getD i []).length = 2)) :=
  ⟨by decide, gen_batch_partition [10, 20, 30, 40, 50] 2 (by decide)⟩

/-- Claim C7 counterexample: for the negative batch size `B = -1` and the
nonempty input `[1, 2, 3]`, `gen_batch` raises no error at all (Python
`range(0, 3, -1)` is empty), so the claim that every `B ≤ 0` fails with an
error is false. -/
theorem gen_batch_neg_no_error :
    gen_batch ([1, 2, 3] : List ℕ) (-1) = Except.ok [] := rfl

/-- Claim C7 amended: for `B = 0` the batch generator raises an error (the
`ValueError` from `range`), while for `B < 0` it raises no error and produces
no slices (the output is empty). -/
theorem gen_batch_nonpos (arr : List α) (B : ℤ) (hB : B ≤ 0) :
    gen_batch arr B =
      if B = 0 then Except.error "ValueError: range() arg 3 must not be zero"
      else Except.ok [] := by
  unfold gen_batch pyRange
  rcases eq_or_lt_of_le hB with rfl | hlt
  · rw [if_pos rfl, if_pos rfl]
    rfl
  · rw [if_neg (by omega), if_neg (by omega)]
    unfold pyRangeLen
    rw [if_neg (by omega), if_pos (by exact_mod_cast Int.ofNat_nonneg arr.length)]
    rfl

/-- Witness for `gen_batch_nonpos` at `arr = [5, 6]`, `B = -2`. -/
theorem gen_batch_nonpos_witness :
    (-2 : ℤ) ≤ 0 ∧
    gen_batch ([5, 6] : List ℕ) (-2) =
      (if (-2 : ℤ) = 0 then Except.error "ValueError: range() arg 3 must not be zero"
       else Except.ok []) :=
  ⟨by decide, gen_batch_nonpos [5, 6] (-2) (by decide)⟩

/-! ## Learning-rate schedule (`RNNTextClassifier.adjust_lr`) -/

/-- The hard-coded `max_lr = 0.005` of `adjust_lr`. -/
noncomputable def max_lr : ℝ := 0.005

/-- The hard-coded `min_lr = 0.001` of `adjust_lr`. -/
noncomputable def min_lr : ℝ := 0.001

/-- Python float division: raises `ZeroDivisionError` on a zero denominator
(it does not return an infinity). -/
noncomputable def pyDiv (a b : ℝ) : Except String ℝ :=
  if b = 0 then Except.error "ZeroDivisionError: float division by zero"
  else Except.ok (a / b)

/-- `RNNTextClassifier.adjust_lr`:
`decay_rate = math.log(min_lr/max_lr) / (-total_steps)` followed by
`lr = max_lr * math.exp(-decay_rate * current_step)`.  The division raises
`ZeroDivisionError` when `total_steps = 0`.  Writing the returned rate into
every `param_group` is the caller-side application of the returned value; the
function's numeric content is the returned rate. -/
noncomputable def adjust_lr (current_step total_steps : ℕ) : Except String ℝ :=
  (pyDiv (Real.log (min_lr / max_lr)) (-(total_steps : ℝ))).map
    (fun decay_rate => max_lr * Real.exp (-decay_rate * (current_step : ℝ)))

/-- The rate returned by `adjust_lr` in the non-error case (`total_steps ≠ 0`). -/
noncomputable def lr_value (current_step total_steps : ℕ) : ℝ :=
  max_lr * Real.exp (-(Real.log (min_lr / max_lr) / (-(total_steps : ℝ))) * (current_step : ℝ))

theorem log_ratio : Real.log (min_lr / max_lr) = -Real.log 5 := by
  have h : (min_lr / max_lr : ℝ) = (5 : ℝ)⁻¹ := by norm_num [min_lr, max_lr]
  rw [h, Real.log_inv]

theorem adjust_lr_ok (s T : ℕ) (hT : 0 < T) :
    adjust_lr s T = Except.ok (lr_value s T) := by
  unfold adjust_lr pyDiv
  rw [if_neg (by
    have : (0 : ℝ) < (T : ℝ) := by exact_mod_cast hT
    intro hc
    rw [neg_eq_zero] at hc
    exact this.ne' hc)]
  rfl

theorem adjust_lr_zero_total (s : ℕ) :
    adjust_lr s 0 = Except.error "ZeroDivisionError: float division by zero" := by
  unfold adjust_lr pyDiv
  rw [if_pos (by norm_num)]
  rfl

/-- The decay rate is `log 5 / T`, which is strictly positive for `T > 0`. -/
theorem decay_rate_eq (T : ℕ) :
    Real.log (min_lr / max_lr) / (-(T : ℝ)) = Real.log 5 / (T : ℝ) := by
  rw [log_ratio, neg_div_neg_eq]

theorem decay_rate_pos (T : ℕ) (hT : 0 < T) :
    0 < Real.log (min_lr / max_lr) / (-(T : ℝ)) := by
  rw [decay_rate_eq]
  exact div_pos (Real.log_pos (by norm_num)) (by exact_mod_cast hT)

theorem max_lr_pos : (0 : ℝ) < max_lr := by norm_num [max_lr]

theorem lr_value_zero (T : ℕ) : lr_value 0 T = max_lr := by
  unfold lr_value
  norm_num

/-- The schedule is strictly decreasing in the step index for `T > 0`. -/
theorem lr_value_strict_anti (T : ℕ) (hT : 0 < T) (s₁ s₂ : ℕ) (h : s₁ < s₂) :
    lr_value s₂ T < lr_value s₁ T := by
  unfold lr_value
  have hd := decay_rate_pos T hT
  have hexp : Real.exp (-(Real.log (min_lr / max_lr) / (-(T : ℝ))) * (s₂ : ℝ)) <
      Real.exp (-(Real.log (min_lr / max_lr) / (-(T : ℝ))) * (s₁ : ℝ)) := by
    apply Real.exp_lt_exp.mpr
    have hs : (s₁ : ℝ) < (s₂ : ℝ) := by exact_mod_cast h
    nlinarith
  exact mul_lt_mul_of_pos_left hexp max_lr_pos

/-- At `current_step = total_steps` the schedule lands exactly on `min_lr`. -/
theorem lr_value_total (T : ℕ) (hT : 0 < T) : lr_value T T = min_lr := by
  unfold lr_value
  rw [decay_rate_eq]
  have hTne : (T : ℝ) ≠ 0 := by exact_mod_cast hT.ne'
  rw [neg_mul, div_mul_cancel₀ _ hTne]
  rw [show -Real.log 5 = Real.log ((5 : ℝ)⁻¹) from (Real.log_inv 5).symm]
  rw [Real.exp_log (by norm_num)]
  norm_num [max_lr, min_lr]

/-- Claim C2: for every `total_steps > 0`, `adjust_lr` (with its hard-coded
`max_lr = 0.005` and `min_lr = 0.001`) succeeds and returns the value
`lr_value`; that value is exactly `max_lr` at step 0, strictly between
`min_lr` and `max_lr` for every `0 < current_step < total_steps`, and
strictly monotonically decreasing in `current_step`. -/
theorem adjust_lr_schedule (T : ℕ) (hT : 0 < T) :
    (∀ s, adjust_lr s T = Except.ok (lr_value s T)) ∧
    lr_value 0 T = max_lr ∧
    (∀ s, 0 < s → s < T → min_lr < lr_value s T ∧ lr_value s T < max_lr) ∧
    (∀ s₁ s₂, s₁ < s₂ → lr_value s₂ T < lr_value s₁ T) := by
  refine ⟨fun s => adjust_lr_ok s T hT, lr_value_zero T, fun s hs hsT => ⟨?_, ?_⟩,
    fun s₁ s₂ h => lr_value_strict_anti T hT s₁ s₂ h⟩
  · rw [← lr_value_total T hT]
    exact lr_value_strict_anti T hT s T hsT
  · rw [← lr_value_zero T]
    exact lr_value_strict_anti T hT 0 s hs

/-- Witness for `adjust_lr_schedule` at `total_steps = 2`. -/
theorem adjust_lr_schedule_witness :
    0 < 2 ∧
    ((∀ s, adjust_lr s 2 = Except.ok (lr_value s 2)) ∧
      lr_value 0 2 = max_lr ∧
      (∀ s, 0 < s → s < 2 → min_lr < lr_value s 2 ∧ lr_value s 2 < max_lr) ∧
      (∀ s₁ s₂, s₁ < s₂ → lr_value s₂ 2 < lr_value s₁ 2)) :=
  ⟨by decide, adjust_lr_schedule 2 (by decide)⟩

/-- Claim C8: for every `current_step`, calling the scheduler with
`total_steps = 0` fails with the division-by-zero error (the spec's
`InvalidArgument` case), because `decay_rate` divides by `-total_steps = 0`. -/
theorem adjust_lr_zero_total_steps_fails (s : ℕ) :
    adjust_lr s 0 = Except.error "ZeroDivisionError: float division by zero" :=
  adjust_lr_zero_total s

/-! ## The training loop's step bookkeeping (`RNNTextClassifier.fit`) -/

/-- `fit`'s `n_batch = int(len(X) / batch_size)`: Python 3 true division
followed by `int`, i.e. the floor for the nonnegative operands used here. -/
def n_batch (X_len batch_size : ℕ) : ℕ := X_len / batch_size

/-- `fit`'s `total_steps = int(n_epoch * n_batch)`. -/
def total_steps (n_epoch X_len batch_size : ℕ) : ℕ := n_epoch * n_batch X_len batch_size

/-- The per-batch body of `fit`, restricted to its learning-rate / optimizer
bookkeeping: for each batch, `adjust_lr` is called with the running
`global_step`; if it raises, the whole `fit` call aborts before that batch's
`optimizer.step()`, otherwise the optimizer step is applied and `global_step`
is incremented by exactly 1.  The first argument is how many batches remain
(`n_epoch ×` batches per epoch in a full run); the result counts the
optimizer steps actually applied. -/
noncomputable def runSteps : ℕ → ℕ → ℕ → Except String ℕ
  | 0, _, _ => Except.ok 0
  | Nat.succ b, gs, T =>
      match adjust_lr gs T with
      | Except.error e => Except.error e
      | Except.ok _ => (runSteps b (gs + 1) T).map (fun c => c + 1)

/-- With a positive `total_steps` every `adjust_lr` call succeeds, so all
batches get an optimizer step. -/
theorem runSteps_pos (T : ℕ) (hT : 0 < T) :
    ∀ n gs, runSteps n gs T = Except.ok n := by
  intro n
  induction n with
  | zero => intro gs; rfl
  | succ b ih =>
      intro gs
      show (match adjust_lr gs T with
        | Except.error e => Except.error e
        | Except.ok _ => (runSteps b (gs + 1) T).map (fun c => c + 1)) = _
      rw [adjust_lr_ok gs T hT, ih (gs + 1)]
      rfl

/-- Claim C9 counterexample: with `len(X) = 3`, `batch_size = 2`, one epoch,
the epoch iterates two batches (global steps 0 and 1) while
`total_steps = 1 * (3 // 2) = 1`; the optimizer step with index
`1 ≥ total_steps` receives exactly `min_lr`, not a value strictly below it,
refuting the claim at this concrete input. -/
theorem fit_lr_boundary_counterexample :
    total_steps 1 3 2 = 1 ∧
    (chunks ([0, 1, 2] : List ℕ) 2).length = 2 ∧
    lr_value 1 1 = min_lr ∧
    ¬ lr_value 1 1 < min_lr := by
  refine ⟨rfl, by simp [chunks], lr_value_total 1 (by decide), ?_⟩
  rw [lr_value_total 1 (by decide)]
  exact lt_irrefl min_lr

/-- Claim C9 amended: when `batch_size` does not divide `len(X)`,
`len(X) > batch_size` and there is at least one epoch, each epoch iterates
`⌈len(X)/batch_size⌉` batches (trailing partial batch included) while
`total_steps = n_epoch * ⌊len(X)/batch_size⌋`, so the global step counter is
incremented strictly past `total_steps` and the whole run still succeeds; the
learning rate applied at step index exactly `total_steps` equals `min_lr`, and
at every step index strictly greater than `total_steps` it is strictly less
than `min_lr`. -/
theorem fit_overruns_total_steps (arr : List α) (B E : ℕ) (hB : 0 < B)
    (hlt : B < arr.length) (hnd : ¬ B ∣ arr.length) (hE : 0 < E) :
    0 < total_steps E arr.length B ∧
    (chunks arr B).length = (arr.length + B - 1) / B ∧
    total_steps E arr.length B < E * (chunks arr B).length ∧
    runSteps (E * (chunks arr B).length) 0 (total_steps E arr.length B) =
      Except.ok (E * (chunks arr B).length) ∧
    lr_value (total_steps E arr.length B) (total_steps E arr.length B) = min_lr ∧
    (∀ s, total_steps E arr.length B < s →
      lr_value s (total_steps E arr.length B) < min_lr) := by
  have hq1 : 1 ≤ arr.length / B := (Nat.one_le_div_iff hB).mpr (le_of_lt hlt)
  have hTpos : 0 < total_steps E arr.length B := by
    unfold total_steps n_batch
    exact Nat.mul_pos hE hq1
  have hr : arr.length % B ≠ 0 := fun hc => hnd (Nat.dvd_of_mod_eq_zero hc)
  have hrlt : arr.length % B < B := Nat.mod_lt _ hB
  have hdm := Nat.div_add_mod arr.length B
  have hceil : (arr.length + B - 1) / B = arr.length / B + 1 := by
    obtain ⟨r, hrq, hr1, hrlt2⟩ : ∃ r, arr.length % B = r ∧ 1 ≤ r ∧ r < B :=
      ⟨arr.length % B, rfl, Nat.one_le_iff_ne_zero.mpr hr, hrlt⟩
    obtain ⟨q, hq⟩ : ∃ q, arr.length / B = q := ⟨_, rfl⟩
    have hn : arr.length = B * q + r := by rw [← hq, ← hrq]; exact hdm.symm
    rw [hq, hn]
    have h1 : B * q + r + B - 1 = B * (q + 1) + (r - 1) := by
      have hexp : B * (q + 1) = B * q + B := by ring
      omega
    rw [h1, Nat.mul_add_div hB,
        Nat.div_eq_of_lt (Nat.lt_of_le_of_lt (Nat.sub_le r 1) hrlt2)]
  refine ⟨hTpos, chunks_length B hB arr, ?_, runSteps_pos _ hTpos _ 0, lr_value_total _ hTpos, ?_⟩
  · rw [chunks_length B hB arr, hceil]
    unfold total_steps n_batch
    have h2 : E * (arr.length / B + 1) = E * (arr.length / B) + E := by ring
    omega
  · intro s hs
    rw [← lr_value_total _ hTpos]
    exact lr_value_strict_anti _ hTpos _ _ hs

/-- Witness for `fit_overruns_total_steps` at `arr = [0, 1, 2]`, `B = 2`,
`E = 1`. -/
theorem fit_overruns_total_steps_witness :
    (0 < 2 ∧ 2 < ([0, 1, 2] : List ℕ).length ∧ ¬ 2 ∣ ([0, 1, 2] : List ℕ).length ∧ 0 < 1) ∧
    (0 < total_steps 1 ([0, 1, 2] : List ℕ).length 2 ∧
      (chunks ([0, 1, 2] : List ℕ) 2).length = (([0, 1, 2] : List ℕ).length + 2 - 1) / 2 ∧
      total_steps 1 ([0, 1, 2] : List ℕ).length 2 < 1 * (chunks ([0, 1, 2] : List ℕ) 2).length ∧
      runSteps (1 * (chunks ([0, 1, 2] : List ℕ) 2).length) 0
          (total_steps 1 ([0, 1, 2] : List ℕ).length 2) =
        Except.ok (1 * (chunks ([0, 1, 2] : List ℕ) 2).length) ∧
      lr_value (total_steps 1 ([0, 1, 2] : List ℕ).length 2)
          (total_steps 1 ([0, 1, 2] : List ℕ).length 2) = min_lr ∧
      (∀ s, total_steps 1 ([0, 1, 2] : List ℕ).length 2 < s →
        lr_value s (total_steps 1 ([0, 1, 2] : List ℕ).length 2) < min_lr)) :=
  ⟨⟨by decide, by decide, by decide, by decide⟩,
    fit_overruns_total_steps [0, 1, 2] 2 1 (by decide) (by decide) (by decide) (by decide)⟩

/-- Claim C10: for `0 < len(X) < batch_size`, `fit` computes
`n_batch = ⌊len(X)/batch_size⌋ = 0`, hence `total_steps = 0`, yet the batch
generator still yields one (partial) batch, so the first `adjust_lr` call
divides by `-total_steps = 0` and the whole run aborts with the
division-by-zero error before any optimizer step is applied. -/
theorem fit_small_dataset_aborts (arr : List α) (B E : ℕ)
    (h0 : 0 < arr.length) (hlt : arr.length < B) (hE : 0 < E) :
    n_batch arr.length B = 0 ∧
    total_steps E arr.length B = 0 ∧
    (chunks arr B).length = 1 ∧
    adjust_lr 0 (total_steps E arr.length B) =
      Except.error "ZeroDivisionError: float division by zero" ∧
    runSteps (E * (chunks arr B).length) 0 (total_steps E arr.length B) =
      Except.error "ZeroDivisionError: float division by zero" := by
  have hB : 0 < B := lt_trans h0 hlt
  have hnb : n_batch arr.length B = 0 := Nat.div_eq_of_lt hlt
  have hts : total_steps E arr.length B = 0 := by
    unfold total_steps
    rw [hnb, Nat.mul_zero]
  have hlen : (chunks arr B).length = 1 := by
    rw [chunks_length B hB arr,
      show arr.length + B - 1 = (arr.length - 1) + B from by omega,
      Nat.add_div_right _ hB, Nat.div_eq_of_lt (by omega)]
  refine ⟨hnb, hts, hlen, by rw [hts]; exact adjust_lr_zero_total 0, ?_⟩
  rw [hlen, hts, Nat.mul_one]
  obtain ⟨e, rfl⟩ : ∃ e, E = e + 1 := ⟨E - 1, by omega⟩
  show (match adjust_lr 0 0 with
    | Except.error er => Except.error er
    | Except.ok _ => (runSteps e (0 + 1) 0).map (fun c => c + 1)) = _
  rw [adjust_lr_zero_total 0]

/-- Witness for `fit_small_dataset_aborts` at `arr = [7]`, `B = 2`, `E = 1`. -/
theorem fit_small_dataset_aborts_witness :
    (0 < ([7] : List ℕ).length ∧ ([7] : List ℕ).length < 2 ∧ 0 < 1) ∧
    (n_batch ([7] : List ℕ).length 2 = 0 ∧
      total_steps 1 ([7] : List ℕ).length 2 = 0 ∧
      (chunks ([7] : List ℕ) 2).length = 1 ∧
      adjust_lr 0 (total_steps 1 ([7] : List ℕ).length 2) =
        Except.error "ZeroDivisionError: float division by zero" ∧
      runSteps (1 * (chunks ([7] : List ℕ) 2).length) 0
          (total_steps 1 ([7] : List ℕ).length 2) =
        Except.error "ZeroDivisionError: float division by zero") :=
  ⟨⟨by decide, by decide, by decide⟩,
    fit_small_dataset_aborts [7] 2 1 (by decide) (by decide) (by decide)⟩

/-! ## Sequence reversal (`RNNTextClassifier.reverse`) -/

/-- A numeric tensor of shape `s` (a list of axis sizes): a function from a
dependent index tuple to `ℝ`. -/
def Tensor (s : List ℕ) : Type := ((i : Fin s.length) → Fin (s.get i)) → ℝ

/-- The position that index `j` of an axis of size `n` is read from after the
axis is reversed: `n - 1 - j`. -/
def revIdx (n : ℕ) : Fin n → Fin n :=
  fun j => ⟨n - 1 - (j : ℕ), by have := j.isLt; omega⟩

/-- `torch.index_select(X, dim, indices)` specialised to a full-length index
list along axis `d` (so the shape is preserved); the index list is given as
the function `idx` on positions of that axis.  Entry `v` of the result is the
entry of `X` whose coordinate along `d` is replaced by `idx (v d)` — all other
coordinates are untouched. -/
def index_select (s : List ℕ) (X : Tensor s) (d : Fin s.length)
    (idx : Fin (s.get d) → Fin (s.get d)) : Tensor s :=
  fun v => X (Function.update v d (idx (v d)))

/-- The index list built by `RNNTextClassifier.reverse`:
`indices = [i for i in range(X.size(dim)-1, -1, -1)]`. -/
def revIndices (n : ℕ) : Except String (List ℤ) := pyRange ((n : ℤ) - 1) (-1) (-1)

/-- `RNNTextClassifier.reverse`: gather along axis `d` with the reversed index
list, i.e. `torch.index_select(X, dim, indices)` with
`indices = [n-1, ..., 1, 0]`. -/
def reverse (s : List ℕ) (X : Tensor s) (d : Fin s.length) : Tensor s :=
  index_select s X d (revIdx (s.get d))

/-- The comprehension `[i for i in range(n-1, -1, -1)]` is `[n-1, ..., 1, 0]`. -/
theorem revIndices_eq (n : ℕ) :
    revIndices n = Except.ok ((List.range n).map (fun (k : ℕ) => (n : ℤ) - 1 - (k : ℤ))) := by
  unfold revIndices pyRange
  rw [if_neg (by norm_num)]
  congr 1
  have hlen : pyRangeLen ((n : ℤ) - 1) (-1) (-1) = n := by
    unfold pyRangeLen
    rw [if_neg (by norm_num)]
    rcases Nat.eq_zero_or_pos n with rfl | hn
    · rw [if_pos (by norm_num)]
    · rw [if_neg (by exact_mod_cast (by omega : ¬ ((n : ℤ) - 1 ≤ -1))),
        show ((n : ℤ) - 1 - (-1) - 1) / (-(-1)) + 1 = (n : ℤ) from by push_cast; omega,
        Int.toNat_ofNat]
  rw [hlen]
  apply List.map_congr_left
  intro k _
  ring_nf

/-- The `j`-th entry of the reversed index list is `n - 1 - j`, the position
`revIdx` reads from. -/
theorem revIndices_matches_revIdx (n : ℕ) (j : Fin n) :
    ((List.range n).map (fun (k : ℕ) => (n : ℤ) - 1 - (k : ℤ))).get
        (Fin.cast (by simp) j) = ((revIdx n j : Fin n) : ℕ) := by
  rw [List.get_eq_getElem, List.getElem_map]
  simp only [List.getElem_range, revIdx, Fin.coe_cast]
  have := j.isLt
  omega

theorem revIdx_invol (n : ℕ) (j : Fin n) : revIdx n (revIdx n j) = j := by
  unfold revIdx
  apply Fin.ext
  simp only
  have := j.isLt
  omega

/-- Claim C3: `reverse` is an involution — reversing a tensor twice along the
same axis `d` restores it — and a single reversal only permutes positions
along axis `d`: the entry at index tuple `v` is read from the tuple whose
`d`-coordinate is `n - 1 - v d` and whose every other coordinate is `v i`
unchanged. -/
theorem reverse_involution (s : List ℕ) (d : Fin s.length) (X : Tensor s) :
    reverse s (reverse s X d) d = X ∧
    (∀ v : (i : Fin s.length) → Fin (s.get i),
      reverse s X d v = X (Function.update v d (revIdx (s.get d) (v d))) ∧
      ∀ i, i ≠ d → Function.update v d (revIdx (s.get d) (v d)) i = v i) := by
  constructor
  · funext v
    show X (Function.update (Function.update v d (revIdx _ (v d))) d
        (revIdx _ ((Function.update v d (revIdx _ (v d))) d))) = X v
    rw [Function.update_same, revIdx_invol, Function.update_idem, Function.update_eq_self]
  · intro v
    exact ⟨rfl, fun i h => Function.update_noteq h _ v⟩

/-! ## Bidirectional encoder (`RNNTextClassifier.bidirectional_rnn`) -/

/-- The embedding lookup `self.encoder(X)` on a batch of token indices: the
embedding table is applied independently to each token. -/
def embedSeq (b n e : ℕ) (encoder : ℕ → Fin e → ℝ) (X : Fin b → Fin n → ℕ) :
    Fin b → Fin n → Fin e → ℝ :=
  fun i t k => encoder (X i t) k

/-- `self.reverse(X, 1)` specialised to a rank-2 batch-first tensor of token
indices (the call on the input batch `X`). -/
def reverse_dim1_tok (b n : ℕ) (X : Fin b → Fin n → ℕ) : Fin b → Fin n → ℕ :=
  fun i t => X i (revIdx n t)

/-- `self.reverse(X, 1)` specialised to a rank-3 batch-first tensor (the call
on the backward cell's output, and the time reversal of an embedded batch). -/
def reverse_dim1 (b n c : ℕ) (X : Fin b → Fin n → Fin c → ℝ) :
    Fin b → Fin n → Fin c → ℝ :=
  fun i t k => X i (revIdx n t) k

/-- `torch.cat((A, Bt), 2)`: concatenation of two equal-shaped rank-3 tensors
along the feature axis, giving feature width `2 * c`. -/
def cat_dim2 (b n c : ℕ) (A Bt : Fin b → Fin n → Fin c → ℝ) :
    Fin b → Fin n → Fin (2 * c) → ℝ :=
  fun i t k =>
    if h : (k : ℕ) < c then A i t ⟨k, h⟩
    else Bt i t ⟨(k : ℕ) - c, by have := k.isLt; omega⟩

/-- `RNNTextClassifier.bidirectional_rnn`: reverse the token batch along time,
embed both versions, run the forward LSTM on the original and the backward
LSTM on the reversed one, reverse the backward output back to original time
order, concatenate along features.  The two LSTMs are external collaborators
(`torch.nn.LSTM` with independent weights), taken as arbitrary sequence-to-
sequence functions. -/
def bidirectional_rnn (b n e c : ℕ)
    (fw_lstm bw_lstm : (Fin b → Fin n → Fin e → ℝ) → (Fin b → Fin n → Fin c → ℝ))
    (encoder : ℕ → Fin e → ℝ) (X : Fin b → Fin n → ℕ) :
    Fin b → Fin n → Fin (2 * c) → ℝ :=
  let X_reversed := reverse_dim1_tok b n X
  let fw_out := fw_lstm (embedSeq b n e encoder X)
  let bw_out := bw_lstm (embedSeq b n e encoder X_reversed)
  cat_dim2 b n c fw_out (reverse_dim1 b n c bw_out)

/-- The encoder as the spec words it (section 4.4, steps 1-5): embed the token
batch once, run the forward cell on it, run the backward cell on the
**embedded sequence reversed along the time axis**, reverse that output back,
and concatenate along the feature axis. -/
def spec_bidirectional_rnn (b n e c : ℕ)
    (fw_lstm bw_lstm : (Fin b → Fin n → Fin e → ℝ) → (Fin b → Fin n → Fin c → ℝ))
    (encoder : ℕ → Fin e → ℝ) (X : Fin b → Fin n → ℕ) :
    Fin b → Fin n → Fin (2 * c) → ℝ :=
  cat_dim2 b n c (fw_lstm (embedSeq b n e encoder X))
    (reverse_dim1 b n c (bw_lstm (reverse_dim1 b n e (embedSeq b n e encoder X))))

/-- Claim C5: the code's encoder output (reverse the token indices, then
embed) coincides with the spec's description (embed, then reverse the embedded
sequence), because the embedding acts per token, so reversal commutes with it;
the concatenation has feature width `2 * cell_size` by construction (the
result type). -/
theorem bidirectional_rnn_matches_spec (b n e c : ℕ)
    (fw_lstm bw_lstm : (Fin b → Fin n → Fin e → ℝ) → (Fin b → Fin n → Fin c → ℝ))
    (encoder : ℕ → Fin e → ℝ) (X : Fin b → Fin n → ℕ) :
    embedSeq b n e encoder (reverse_dim1_tok b n X) =
      reverse_dim1 b n e (embedSeq b n e encoder X) ∧
    bidirectional_rnn b n e c fw_lstm bw_lstm encoder X =
      spec_bidirectional_rnn b n e c fw_lstm bw_lstm encoder X :=
  ⟨rfl, rfl⟩

/-! ## Attention pooling (`RNNTextClassifier.attention`) -/

/-- `torch.nn.functional._get_softmax_dim`: the axis `F.softmax` falls back to
when called without a `dim` argument, as this code does (legacy PyTorch
behaviour, kept for backward compatibility): axis 0 for tensors of rank 0, 1
or 3, axis 1 otherwise.  The attention code applies `softmax` to a rank-3
tensor, so the softmax runs along axis 0 — the batch axis. -/
def get_softmax_dim (ndim : ℕ) : ℕ :=
  if ndim = 0 ∨ ndim = 1 ∨ ndim = 3 then 0 else 1

/-- Softmax of a rank-3 tensor along the given axis: exponentiate entrywise
and normalise by the sum of exponentials along that axis. -/
noncomputable def softmax3 (b n m : ℕ) (dim : ℕ) (T : Fin b → Fin n → Fin m → ℝ) :
    Fin b → Fin n → Fin m → ℝ :=
  if dim = 0 then fun i t k => Real.exp (T i t k) / ∑ j, Real.exp (T j t k)
  else if dim = 1 then fun i t k => Real.exp (T i t k) / ∑ j, Real.exp (T i j k)
  else fun i t k => Real.exp (T i t k) / ∑ j, Real.exp (T i t j)

/-- The attention weights of `RNNTextClassifier.attention`:
`reshaped = X.view(-1, 2*self.cell_size)` flattens batch and time (per-row
computation on the flattened tensor is per-(example, timestep) computation),
`reduced = tanh(self.attn_fc(reshaped))` applies the learned scalar projection
(weight row `w`, bias `bias`) and the bounded nonlinearity, and
`alphas = torch.nn.functional.softmax(reduced.view(batch_size, -1, 1))` calls
`F.softmax` with no `dim` argument on the rank-3 view, hence along axis
`get_softmax_dim 3`. -/
noncomputable def attention_alphas (b n c : ℕ) (w : Fin (2 * c) → ℝ) (bias : ℝ)
    (X : Fin b → Fin n → Fin (2 * c) → ℝ) : Fin b → Fin n → Fin 1 → ℝ :=
  softmax3 b n 1 (get_softmax_dim 3)
    (fun i t _ => Real.tanh ((∑ k, w k * X i t k) + bias))

/-- `torch.bmm(torch.transpose(X, 1, 2), alphas).squeeze(2)`: the
attention-weighted sum over timesteps of the encoder output. -/
noncomputable def attention (b n c : ℕ) (w : Fin (2 * c) → ℝ) (bias : ℝ)
    (X : Fin b → Fin n → Fin (2 * c) → ℝ) : Fin b → Fin (2 * c) → ℝ :=
  fun i k => ∑ t, X i t k * attention_alphas b n c w bias X i t 0

/-- Claim C4 is refuted by the code: `F.softmax` is called without a `dim`
argument on a rank-3 tensor, so PyTorch's legacy default normalises along axis
0 — the batch axis — not the sequence axis.  Concretely, for a batch of one
example with `seq_len = 2` (zero weights, zero bias, zero encoder output),
every attention weight is exactly 1 and the example's weights sum to 2, not 1. -/
theorem attention_softmax_wrong_axis :
    (∑ t : Fin 2, attention_alphas 1 2 1 (fun _ => 0) 0 (fun _ _ _ => 0) 0 t 0) = 2 ∧
    (2 : ℝ) ≠ 1 := by
  constructor
  · simp [attention_alphas, softmax3, get_softmax_dim, Real.tanh_zero, Real.exp_zero]
  · norm_num

/-! ## Evaluation loop (`RNNTextClassifier.evaluate`) -/

/-- `(preds == labels).sum()`: the number of aligned positions where the
predicted label equals the true label. -/
def countCorrect {β : Type} [DecidableEq β] (preds labels : List β) : ℕ :=
  (List.zip preds labels).countP (fun p => decide (p.1 = p.2))

theorem countCorrect_append {β : Type} [DecidableEq β] (ps ps' ys ys' : List β)
    (h : ps.length = ys.length) :
    countCorrect (ps ++ ps') (ys ++ ys') = countCorrect ps ys + countCorrect ps' ys' := by
  unfold countCorrect
  rw [List.zip_append h, List.countP_append]

/-- The per-batch accumulation of `evaluate`:
`correct += (preds == labels).sum()` and `total += labels.size(0)`. -/
def evalStep {τ β : Type} [DecidableEq β] (predict : List τ → List β) :
    (ℕ × ℕ) → (List τ × List β) → (ℕ × ℕ) :=
  fun ct p => (ct.1 + countCorrect (predict p.1) p.2, ct.2 + p.2.length)

/-- The batch loop of `RNNTextClassifier.evaluate`: iterate over
`zip(self.gen_batch(X_test, batch_size), self.gen_batch(y_test, batch_size))`,
accumulating `(correct, total)` from `(0, 0)`.  The forward pass
`self.forward(inputs, len(X_batch))` followed by `torch.max(..., 1)[1]` is the
external parameter `predict` (one predicted label per batch example). -/
def evaluateCounts {τ β : Type} [DecidableEq β] (predict : List τ → List β)
    (X_test : List τ) (y_test : List β) (batch_size : ℤ) : Except String (ℕ × ℕ) := do
  let xbatches ← gen_batch X_test batch_size
  let ybatches ← gen_batch y_test batch_size
  pure ((xbatches.zip ybatches).foldl (evalStep predict) (0, 0))

/-- `RNNTextClassifier.evaluate`: accumulate `(correct, total)` over all
batches and report `float(correct) / total` (Python float division, raising
`ZeroDivisionError` when `total = 0`).  The method reads the trainable
parameter bundle `p` only through the forward pass `predict p` and never
writes it (no optimizer call, no assignment to `self.*`), so the translation
threads `p` through unchanged and returns it with the reported accuracy. -/
def evaluate {P τ β : Type} [DecidableEq β] (p : P) (predict : P → List τ → List β)
    (X_test : List τ) (y_test : List β) (batch_size : ℤ) : Except String (P × ℚ) := do
  let counts ← evaluateCounts (predict p) X_test y_test batch_size
  if counts.2 = 0 then Except.error "ZeroDivisionError: float division by zero"
  else pure (p, (counts.1 : ℚ) / (counts.2 : ℚ))

theorem eval_foldl {τ β : Type} [DecidableEq β] (predict : List τ → List β)
    (l : List (List τ × List β)) (c t : ℕ) :
    l.foldl (evalStep predict) (c, t) =
      (c + (l.map (fun p => countCorrect (predict p.1) p.2)).sum,
       t + (l.map (fun p => p.2.length)).sum) := by
  induction l generalizing c t with
  | nil => simp
  | cons a l ih =>
      rw [List.foldl_cons, ih]
      simp [evalStep]
      constructor <;> omega

/-- Summing the per-batch correct counts over aligned batches equals counting
correct predictions of the concatenated batch predictions against the full
label list. -/
theorem zip_chunks_correct {τ β : Type} [DecidableEq β] (predict : List τ → List β)
    (hp : ∀ l, (predict l).length = l.length) (B : ℕ) (hB : 0 < B) :
    ∀ (X : List τ) (y : List β), X.length = y.length →
    (((chunks X B).zip (chunks y B)).map (fun p => countCorrect (predict p.1) p.2)).sum =
      countCorrect ((chunks X B).map predict).flatten y := by
  have H : ∀ n (X : List τ) (y : List β), X.length ≤ n → X.length = y.length →
      (((chunks X B).zip (chunks y B)).map (fun p => countCorrect (predict p.1) p.2)).sum =
        countCorrect ((chunks X B).map predict).flatten y := by
    intro n
    induction n with
    | zero =>
        intro X y hX hlen
        have hXnil : X = [] := List.eq_nil_of_length_eq_zero (Nat.le_zero.mp hX)
        have hynil : y = [] := List.eq_nil_of_length_eq_zero (by omega)
        subst hXnil; subst hynil
        simp [chunks_nil, countCorrect]
    | succ n ih =>
        intro X y hX hlen
        rcases X with _ | ⟨a, as⟩
        · have hynil : y = [] := List.eq_nil_of_length_eq_zero (by simp at hlen; omega)
          subst hynil
          simp [chunks_nil, countCorrect]
        · have hyne : y ≠ [] := by
            intro hc
            subst hc
            simp at hlen
          rw [chunks_eq_cons (a :: as) B hB (by simp), chunks_eq_cons y B hB hyne]
          rw [List.zip_cons_cons, List.map_cons, List.sum_cons, List.map_cons,
              List.flatten_cons]
          have hlen2 : ((a :: as).drop B).length = (y.drop B).length := by
            simp [List.length_drop, hlen]
          have hlen3 : ((a :: as).drop B).length ≤ n := by
            simp only [List.length_drop, List.length_cons] at hX ⊢
            omega
          rw [ih ((a :: as).drop B) (y.drop B) hlen3 hlen2]
          have hfirst : (predict ((a :: as).take B)).length = (y.take B).length := by
            rw [hp, List.length_take, List.length_take, hlen]
          calc countCorrect (predict ((a :: as).take B)) (y.take B) +
                countCorrect ((chunks ((a :: as).drop B) B).map predict).flatten (y.drop B)
              = countCorrect (predict ((a :: as).take B) ++
                  ((chunks ((a :: as).drop B) B).map predict).flatten)
                  (y.take B ++ y.drop B) := by
                rw [countCorrect_append _ _ _ _ hfirst]
            _ = _ := by rw [List.take_append_drop]
  intro X y hlen
  exact H X.length X y le_rfl hlen

/-- Summing the per-batch label counts over aligned batches recovers the total
number of test labels. -/
theorem zip_chunks_total {τ β : Type} (B : ℕ)
    (X : List τ) (y : List β)
    (hchunks_len : (chunks X B).length = (chunks y B).length)
    (hflat : (chunks y B).flatten = y) :
    (((chunks X B).zip (chunks y B)).map (fun p => p.2.length)).sum = y.length := by
  have h2 : ((chunks X B).zip (chunks y B)).map Prod.snd = chunks y B :=
    List.map_snd_zip _ _ (le_of_eq hchunks_len.symm)
  have h1 : ((chunks X B).zip (chunks y B)).map (fun p => p.2.length) =
      ((chunks y B).map List.length) := by
    calc ((chunks X B).zip (chunks y B)).map (fun p => p.2.length)
        = (((chunks X B).zip (chunks y B)).map Prod.snd).map List.length := by
          rw [List.map_map]
          rfl
      _ = (chunks y B).map List.length := by rw [h2]
  rw [h1, ← List.length_flatten, hflat]

/-- The accumulated counts: total is the full test-set size (the trailing
partial batch included) and correct is the correct-prediction count over the
concatenation of all batch predictions. -/
theorem evaluateCounts_spec {τ β : Type} [DecidableEq β] (predict : List τ → List β)
    (hp : ∀ l, (predict l).length = l.length) (B : ℕ) (hB : 0 < B)
    (X : List τ) (y : List β) (hlen : X.length = y.length) :
    evaluateCounts predict X y (B : ℤ) =
      Except.ok (countCorrect ((chunks X B).map predict).flatten y, y.length) := by
  unfold evaluateCounts
  rw [gen_batch_pos X B hB, gen_batch_pos y B hB]
  show Except.ok (((chunks X B).zip (chunks y B)).foldl (evalStep predict) (0, 0)) = _
  rw [eval_foldl]
  have hc := zip_chunks_correct predict hp B hB X y hlen
  have ht := zip_chunks_total B X y
    (by rw [chunks_length B hB X, chunks_length B hB y, hlen]) (chunks_flatten B hB y)
  simp only [Nat.zero_add, zero_add]
  rw [hc, ht]

/-- Claim C6: `evaluate` mutates no trainable parameter — the parameter bundle
`p` (embedding table, both LSTMs' weights, attention projection, classifier
projection) is only read through the forward pass and is returned unchanged —
and, for matching nonempty test data and a positive batch size, the reported
accuracy is exactly the total correct-prediction count divided by the total
example count accumulated over all batches, the trailing partial batch
included. -/
theorem evaluate_frame_and_accuracy {P τ β : Type} [DecidableEq β] (p : P)
    (predict : P → List τ → List β)
    (hp : ∀ q l, (predict q l).length = l.length)
    (X_test : List τ) (y_test : List β) (B : ℕ) (hB : 0 < B)
    (hlen : X_test.length = y_test.length) (hne : 0 < X_test.length) :
    evaluate p predict X_test y_test (B : ℤ) =
      Except.ok (p,
        (countCorrect ((chunks X_test B).map (predict p)).flatten y_test : ℚ) /
          (X_test.length : ℚ)) := by
  unfold evaluate
  rw [evaluateCounts_spec (predict p) (hp p) B hB X_test y_test hlen]
  show (if y_test.length = 0 then Except.error "ZeroDivisionError: float division by zero"
    else pure (p,
      ((countCorrect ((chunks X_test B).map (predict p)).flatten y_test : ℕ) : ℚ) /
        ((y_test.length : ℕ) : ℚ))) = _
  rw [if_neg (by omega), hlen]
  rfl

/-- Witness for `evaluate_frame_and_accuracy`: a constant classifier that
always predicts label 0 on three examples with labels `[0, 1, 0]` and batch
size 2. -/
theorem evaluate_frame_and_accuracy_witness :
    (0 < 2 ∧ ([10, 20, 30] : List ℕ).length = ([0, 1, 0] : List ℕ).length ∧
      0 < ([10, 20, 30] : List ℕ).length) ∧
    evaluate () (fun (_ : Unit) (l : List ℕ) => l.map (fun _ => (0 : ℕ)))
        [10, 20, 30] [0, 1, 0] ((2 : ℕ) : ℤ) =
      Except.ok ((),
        (countCorrect ((chunks ([10, 20, 30] : List ℕ) 2).map
            ((fun (_ : Unit) (l : List ℕ) => l.map (fun _ => (0 : ℕ))) ())).flatten
          [0, 1, 0] : ℚ) / (([10, 20, 30] : List ℕ).length : ℚ)) :=
  ⟨⟨by decide, by decide, by decide⟩,
    evaluate_frame_and_accuracy () (fun _ l => l.map (fun _ => 0))
      (fun q l => by simp) [10, 20, 30] [0, 1, 0] 2 (by decide) (by decide) (by decide)⟩
